import Mathlib

/-!
Verification of the classlist parsing core (classlist_parser/parser.py).

Shallow embedding conventions:
* Python strings are modelled as List Char; lines come from splitting a
  page text on the newline character, exactly as text.split of a newline
  does in the source.
* The regular expressions in the source use only constructs whose match
  behaviour is deterministic on the character classes involved (greedy
  runs over disjoint classes), so they are translated into direct
  character-list scanners; each translation is documented at its
  definition.
* Python character classes for backslash-s, backslash-d and backslash-w
  are modelled over their ASCII ranges (the documents are ASCII text);
  this is the only simplification relative to full Unicode semantics.
-/

/-- ASCII whitespace, the characters matched by the backslash-s class and
removed by str.strip in the source. -/
def isSpace (c : Char) : Bool :=
  c == ' ' || c == '\t' || c == '\n' || c == '\r' || c == '\x0b' || c == '\x0c'

/-- ASCII decimal digit, the backslash-d class. -/
def isDigit (c : Char) : Bool :=
  decide ('0' ≤ c) && decide (c ≤ '9')

/-- ASCII uppercase letter, the class written as A-Z in the header pattern. -/
def isUpper (c : Char) : Bool :=
  decide ('A' ≤ c) && decide (c ≤ 'Z')

/-- ASCII word character, the backslash-w class. -/
def isWordChar (c : Char) : Bool :=
  isUpper c || (decide ('a' ≤ c) && decide (c ≤ 'z')) || isDigit c || c == '_'

/-- Drop trailing whitespace; helper for the model of str.strip. -/
def dropTrailing : List Char → List Char
  | [] => []
  | c :: rest =>
    let r := dropTrailing rest
    if r.isEmpty then (if isSpace c then [] else [c]) else c :: r

/-- Model of str.strip: remove leading and trailing whitespace. -/
def strip (l : List Char) : List Char :=
  dropTrailing (l.dropWhile isSpace)

/-- Model of str.split with a single separator character, as used for
splitting a page text on newlines and a name region on commas: empty
pieces are kept, and the empty string yields one empty piece. -/
def splitChar (sep : Char) : List Char → List (List Char)
  | [] => [[]]
  | c :: rest =>
    if c == sep then [] :: splitChar sep rest
    else
      match splitChar sep rest with
      | h :: t => (c :: h) :: t
      | [] => [[c]]

/-- First whitespace-delimited token of a string, the element at index 0
of str.split with no arguments. -/
def firstToken (s : List Char) : List Char :=
  (s.dropWhile isSpace).takeWhile (fun c => !isSpace c)

/-- Whether the pattern starts the text, comparing characters one by one. -/
def startsWith : List Char → List Char → Bool
  | _, [] => true
  | [], _ :: _ => false
  | c :: cs, p :: ps => c == p && startsWith cs ps

/-- Model of the Python substring test (pat in s). -/
def containsSub (pat : List Char) : List Char → Bool
  | [] => pat.isEmpty
  | c :: rest => startsWith (c :: rest) pat || containsSub pat rest

/-- Remainder after the first whitespace-delimited token, the element at
index 1 of str.split with separator None and maxsplit 1; none models the
IndexError raised when that element does not exist (fewer than two
fields). -/
def restAfterFirstToken (s : List Char) : Option (List Char) :=
  let t := s.dropWhile isSpace
  let rest := (t.dropWhile (fun c => !isSpace c)).dropWhile isSpace
  if t.isEmpty || rest.isEmpty then none else some rest

/-! ## Data model -/

/-- The five positional groups captured by the class-header pattern
(five-digit CRN, subject word, course number with optional trailing
uppercase letter, one-digit section, raw remaining title text). -/
structure HeaderGroups where
  crn : List Char
  subject : List Char
  courseNumber : List Char
  sec : List Char
  courseName : List Char
deriving DecidableEq, Repr

/-- The current_class dictionary built from a header match; the course
name is the fifth group with surrounding whitespace stripped. -/
structure ClassContext where
  crn : List Char
  subject : List Char
  courseNumber : List Char
  sec : List Char
  courseName : List Char
deriving DecidableEq, Repr

/-- One row appended to the records list. The constant empty non-PCC
email column is omitted: it carries no information. -/
structure StudentRecord where
  firstName : List Char
  lastName : List Char
  gNumber : List Char
  email : List Char
  classLabel : List Char
  crn : List Char
deriving DecidableEq, Repr

/-- The two settings consumed by the parsing core: allowed_courses (a set
of course-number strings, or None to disable filtering, modelled as an
optional list used only through membership) and email_domain. -/
structure Settings where
  allowedCourses : Option (List (List Char))
  emailDomain : List Char

/-- Membership test equivalent to: allowed is None or course in allowed.
The source clears the context exactly when this is false. -/
def courseAllowed (allowed : Option (List (List Char))) (course : List Char) : Bool :=
  match allowed with
  | none => true
  | some l => l.contains course

/-! ## Header line recognition

The source matches each line against the anchored pattern
five digits, whitespace, word run, whitespace, digit run with optional
uppercase letter, whitespace, single digit, whitespace, rest. All
repetitions are greedy over classes disjoint from their successors, so
the match is equivalent to the maximal-munch scan below; the only
backtracking point, the optional uppercase letter, is resolved exactly as
the engine does (take the letter only when whitespace follows it). -/

/-- Match the tail of the header pattern after the course number: one or
more whitespace, a single digit section, one or more whitespace, then the
rest of the line as the raw title group. -/
def sectionAndTitle (crn subj num : List Char) (r : List Char) : Option HeaderGroups :=
  if (r.takeWhile isSpace).isEmpty then none
  else
    match r.dropWhile isSpace with
    | [] => none
    | s :: r2 =>
      if isDigit s then
        if (r2.takeWhile isSpace).isEmpty then none
        else some { crn := crn, subject := subj, courseNumber := num, sec := [s],
                    courseName := r2.dropWhile isSpace }
      else none

/-- Model of re.match of the class-header pattern against a line. -/
def headerMatch (line : List Char) : Option HeaderGroups :=
  let r0 := line.dropWhile isSpace
  let crn := r0.take 5
  if crn.length == 5 && crn.all isDigit then
    let r1 := r0.drop 5
    if (r1.takeWhile isSpace).isEmpty then none
    else
      let r2 := r1.dropWhile isSpace
      let subj := r2.takeWhile isWordChar
      if subj.isEmpty then none
      else
        let r3 := r2.dropWhile isWordChar
        if (r3.takeWhile isSpace).isEmpty then none
        else
          let r4 := r3.dropWhile isSpace
          let num := r4.takeWhile isDigit
          if num.isEmpty then none
          else
            match r4.drop num.length with
            | [] => none
            | c :: r5 =>
              if isUpper c then sectionAndTitle crn subj (num ++ [c]) r5
              else sectionAndTitle crn subj num (c :: r5)
  else none

/-- The context built from a header match: the five captured groups, with
the title group stripped of surrounding whitespace. -/
def mkContext (g : HeaderGroups) : ClassContext :=
  { crn := g.crn, subject := g.subject, courseNumber := g.courseNumber,
    sec := g.sec, courseName := strip g.courseName }

/-- The header pass over the lines of one page: every line is matched
against the header pattern in order; a match inside the allow list
replaces the context, a match outside it clears the context to none
(the empty dictionary in the source), and other lines leave it alone. -/
def headerPass (allowed : Option (List (List Char))) :
    Option ClassContext → List (List Char) → Option ClassContext
  | ctx, [] => ctx
  | ctx, line :: rest =>
    match headerMatch line with
    | none => headerPass allowed ctx rest
    | some g =>
      if courseAllowed allowed g.courseNumber then
        headerPass allowed (some (mkContext g)) rest
      else
        headerPass allowed none rest

/-! ## Identifier recognition and record extraction -/

/-- Model of re.search for the letter G followed by exactly eight digits:
scan left to right for the first position where the pattern matches, and
return the text before that position together with the matched
identifier. The text before the match is also what str.split on the
matched string yields at index 0, because the match position is the
leftmost occurrence of the matched nine-character string. -/
def findGnum : List Char → Option (List Char × List Char)
  | [] => none
  | c :: rest =>
    if c == 'G' && (rest.take 8).length == 8 && (rest.take 8).all isDigit then
      some ([], c :: rest.take 8)
    else
      match findGnum rest with
      | some (p, g) => some (c :: p, g)
      | none => none

/-- Name extraction from the region before the identifier: discard the
leading whitespace-delimited token, split the remainder on every comma,
and take the first two pieces stripped; if the token removal or the
comma indexing fails (the try block in the source), both names are
empty. -/
def extractNames (region : List Char) : List Char × List Char :=
  match restAfterFirstToken region with
  | none => ([], [])
  | some rest =>
    match splitChar ',' rest with
    | p0 :: p1 :: _ => (strip p0, strip p1)
    | _ => ([], [])

/-- Email extraction from the line after the identifier line, when it
exists: strip it, and when the configured domain occurs in the stripped
line take its first whitespace token, otherwise the empty string.
For an empty configured domain and a follow line that strips to nothing
the source raises an IndexError instead of producing a record; this
total function collapses that error path to an empty email. The error
path is modelled explicitly by emailFromNextChecked and
identPassChecked below, which agree with the total functions exactly
when the configured domain is nonempty; theorems quantifying over the
domain either carry that hypothesis or use the checked pass. -/
def emailFromNext (domain : List Char) (next? : Option (List Char)) : List Char :=
  match next? with
  | none => []
  | some l =>
    let el := strip l
    if containsSub domain el then firstToken el else []

/-- The record appended for one identifier line under an active context. -/
def mkRecord (domain : List Char) (c : ClassContext) (region g : List Char)
    (next? : Option (List Char)) : StudentRecord :=
  { firstName := (extractNames region).2
    lastName := (extractNames region).1
    gNumber := g
    email := emailFromNext domain next?
    classLabel := c.subject ++ ' ' :: c.courseNumber
    crn := c.crn }

/-- The identifier pass over the lines of one page, the while loop of the
source with the cursor made structural: at each position, a line holding
the identifier pattern while a context is active emits one record (using
the following line for email) and moves the cursor forward by two;
every other line moves it forward by one. -/
def identPass (domain : List Char) (ctx : Option ClassContext) :
    List (List Char) → List StudentRecord
  | [] => []
  | [line] =>
    match findGnum line, ctx with
    | some (p, g), some c => [mkRecord domain c p g none]
    | _, _ => []
  | line :: next :: rest =>
    match findGnum line, ctx with
    | some (p, g), some c => mkRecord domain c p g (some next) :: identPass domain ctx rest
    | _, _ => identPass domain ctx (next :: rest)

/-- Email extraction with the source error path made explicit: taking
element 0 of an empty split result raises an IndexError, which happens
exactly when the stripped follow line is empty while the configured
domain still occurs in it (only possible for the empty domain, since
the empty string contains every suffix of itself); none models that
raise, some models the value the source computes. -/
def emailFromNextChecked (domain : List Char) (next? : Option (List Char)) :
    Option (List Char) :=
  match next? with
  | none => some []
  | some l =>
    let el := strip l
    if containsSub domain el then
      (if el.isEmpty then none else some (firstToken el))
    else some []

/-- The identifier pass with the source error path made explicit: none
models a run aborted by the IndexError of the email extraction (the
exception escapes the loop, so the run ends and no output is produced;
records gathered before the raise die with the run); some models a run
that completes with the listed records. -/
def identPassChecked (domain : List Char) (ctx : Option ClassContext) :
    List (List Char) → Option (List StudentRecord)
  | [] => some []
  | [line] =>
    match findGnum line, ctx with
    | some (p, g), some c => some [mkRecord domain c p g none]
    | _, _ => some []
  | line :: next :: rest =>
    match findGnum line, ctx with
    | some (p, g), some c =>
      match emailFromNextChecked domain (some next) with
      | none => none
      | some e =>
        match identPassChecked domain ctx rest with
        | none => none
        | some rs =>
          some ({ firstName := (extractNames p).2, lastName := (extractNames p).1,
                  gNumber := g, email := e,
                  classLabel := c.subject ++ ' ' :: c.courseNumber, crn := c.crn } :: rs)
    | _, _ => identPassChecked domain ctx (next :: rest)

/-- One iteration of the page loop: split the page text into lines, run
the header pass over all lines, then run the identifier pass over all
lines under the resulting context. -/
def processPage (s : Settings) (ctx : Option ClassContext) (pageText : List Char) :
    Option ClassContext × List StudentRecord :=
  let lines := splitChar '\n' pageText
  let ctx2 := headerPass s.allowedCourses ctx lines
  (ctx2, identPass s.emailDomain ctx2 lines)

/-- The document walk: the context persists across page boundaries and
records accumulate in page order. -/
def walk (s : Settings) : Option ClassContext → List (List Char) → List StudentRecord
  | _, [] => []
  | ctx, p :: ps => (processPage s ctx p).2 ++ walk s (processPage s ctx p).1 ps

/-- The whole parse starts with no active context (the empty dictionary). -/
def parseDocument (s : Settings) (pages : List (List Char)) : List StudentRecord :=
  walk s none pages

/-- The per-page contexts that are active while each page is scanned for
identifiers, in page order. -/
def pageContexts (s : Settings) : Option ClassContext → List (List Char) →
    List (Option ClassContext)
  | _, [] => []
  | ctx, p :: ps => (processPage s ctx p).1 :: pageContexts s (processPage s ctx p).1 ps

/-! ## Term detection

The source first searches the first page text for a season word followed
by whitespace and a year of the form 20 then two digits, between word
boundaries and case-insensitively; failing that it scans for a Banner
term code of the form 20, two digits, 0, then a digit from 1 to 4,
between word boundaries, and converts the first code whose conversion is
nonempty. Both searches are leftmost-first scans. -/

/-- ASCII lowercasing of one character, as done by re.IGNORECASE and by
the lowercasing part of str.title. -/
def toLowerChar (c : Char) : Char :=
  if isUpper c then Char.ofNat (c.toNat + 32) else c

/-- ASCII uppercasing of one character. -/
def toUpperChar (c : Char) : Char :=
  if decide ('a' ≤ c) && decide (c ≤ 'z') then Char.ofNat (c.toNat - 32) else c

/-- Model of str.title on a single word of letters, which is the only
shape the season group can take: uppercase the first character and
lowercase the rest. -/
def titleWord : List Char → List Char
  | [] => []
  | c :: rest => toUpperChar c :: rest.map toLowerChar

/-- Case-insensitive match of a fixed pattern word at the head of the
text, returning the matched text verbatim and the remainder. -/
def matchCaseless : List Char → List Char → Option (List Char × List Char)
  | [], l => some ([], l)
  | _ :: _, [] => none
  | p :: ps, c :: cs =>
    if toLowerChar c == toLowerChar p then
      match matchCaseless ps cs with
      | some (m, rest) => some (c :: m, rest)
      | none => none
    else none

/-- The four alternatives of the season group, in the order the pattern
lists them; at any position at most one of them can match. -/
def seasonAlt : List (List Char) :=
  [("Spring".toList), ("Summer".toList), ("Fall".toList), ("Winter".toList)]

/-- First alternative of the season group matching at the head of the
text. -/
def firstAlt : List (List Char) → List Char → Option (List Char × List Char)
  | [], _ => none
  | p :: ps, l =>
    match matchCaseless p l with
    | some r => some r
    | none => firstAlt ps l

/-- Match of the whole season-and-year pattern at one position: a word
boundary before the season (the previous character, when there is one,
is not a word character), a season alternative, one or more whitespace
characters, the four year characters 2, 0, digit, digit, and a word
boundary after the year. Returns the season text and the year. -/
def termTextAt (prev : Option Char) (l : List Char) : Option (List Char × List Char) :=
  if prev.all (fun c => !isWordChar c) then
    match firstAlt seasonAlt l with
    | none => none
    | some (season, r1) =>
      if (r1.takeWhile isSpace).isEmpty then none
      else
        match r1.dropWhile isSpace with
        | y1 :: y2 :: y3 :: y4 :: r2 =>
          if y1 == '2' && y2 == '0' && isDigit y3 && isDigit y4
              && r2.head?.all (fun c => !isWordChar c) then
            some (season, [y1, y2, y3, y4])
          else none
        | _ => none
  else none

/-- Leftmost search for the season-and-year pattern, carrying the
previous character for the word-boundary test. -/
def findTermText : Option Char → List Char → Option (List Char × List Char)
  | _, [] => none
  | prev, c :: rest =>
    match termTextAt prev (c :: rest) with
    | some r => some r
    | none => findTermText (some c) rest

/-- Match of the Banner term-code pattern at one position: word boundary,
the six characters 2, 0, digit, digit, 0, one of 1 2 3 4, word
boundary. -/
def termCodeAt (prev : Option Char) (l : List Char) : Option (List Char) :=
  match l with
  | c1 :: c2 :: c3 :: c4 :: c5 :: c6 :: rest =>
    if c1 == '2' && c2 == '0' && isDigit c3 && isDigit c4 && c5 == '0'
        && (c6 == '1' || c6 == '2' || c6 == '3' || c6 == '4')
        && prev.all (fun c => !isWordChar c)
        && rest.head?.all (fun c => !isWordChar c) then
      some [c1, c2, c3, c4, c5, c6]
    else none
  | _ => none

/-- The season table of term_from_code: last digit 1 to 4 maps to a
season name, anything else to the empty string (the dictionary get with
an empty default; for a non-digit last character the source would raise
inside int, which no caller can reach because the code pattern only
produces digits). -/
def seasonMap (d : Char) : List Char :=
  if d == '1' then ("Winter".toList)
  else if d == '2' then ("Spring".toList)
  else if d == '3' then ("Summer".toList)
  else if d == '4' then ("Fall".toList)
  else []

/-- Model of term_from_code: the season of the last character of the
code, a space, the first four characters, the whole stripped. -/
def termFromCode (code : List Char) : List Char :=
  strip (seasonMap (code.getLastD ' ') ++ ' ' :: code.take 4)

/-- The loop over term-code matches in detection order, returning the
first conversion that is nonempty (after an empty conversion the source
would resume after the whole match rather than at the next character;
the difference is unreachable since every matched code converts to a
nonempty label, which is proved below). -/
def codeLoop : Option Char → List Char → List Char
  | _, [] => []
  | prev, c :: rest =>
    match termCodeAt prev (c :: rest) with
    | some code => if (termFromCode code).isEmpty then codeLoop (some c) rest else termFromCode code
    | none => codeLoop (some c) rest

/-- Leftmost search for the term-code pattern. -/
def findTermCode : Option Char → List Char → Option (List Char)
  | _, [] => none
  | prev, c :: rest =>
    match termCodeAt prev (c :: rest) with
    | some code => some code
    | none => findTermCode (some c) rest

/-- Model of detect_term_from_pdf applied to the text of the first page:
the season-and-year search wins when it matches, with the season
title-cased; otherwise the term-code loop decides. -/
def detectTerm (header : List Char) : List Char :=
  match findTermText none header with
  | some (season, year) => titleWord season ++ ' ' :: year
  | none => codeLoop none header

/-! ## Filename sanitation -/

/-- The characters kept by safe_filename: ASCII letters, digits, the
space, the underscore and the hyphen. -/
def isAllowedChar (c : Char) : Bool :=
  isUpper c || (decide ('a' ≤ c) && decide (c ≤ 'z')) || isDigit c
    || c == ' ' || c == '_' || c == '-'

/-- Replace every maximal whitespace run by a single space, the
substitution of one space for each match of a whitespace-run pattern;
the boolean records whether the previous character belonged to a run
already replaced. -/
def collapseAux : Bool → List Char → List Char
  | _, [] => []
  | inRun, c :: rest =>
    if isSpace c then
      if inRun then collapseAux true rest else ' ' :: collapseAux true rest
    else c :: collapseAux false rest

/-- Model of safe_filename: strip, remove disallowed characters, collapse
whitespace runs to single spaces, strip again. -/
def safeFilename (s : List Char) : List Char :=
  strip (collapseAux false ((strip s).filter isAllowedChar))

/-! ## Definitions taken from the wording of the specification

Each definition below follows the words of a claim (or of its amended
form) rather than the source; they exist only to be compared with the
source translations above. -/

/-- Claim wording for name extraction: discard the leading token of the
name region, split the remainder at the first comma into last and first
name, trim both; the amended form instead reads the first piece up to
the first comma and the second piece from after the first comma up to
the next comma. The field afterComma is the remainder after the first
comma when one exists. -/
def afterFirstComma (s : List Char) : Option (List Char) :=
  match s.dropWhile (fun c => !(c == ',')) with
  | [] => none
  | _ :: t => some t

/-- Text up to (not including) the first comma. -/
def upToComma (s : List Char) : List Char :=
  s.takeWhile (fun c => !(c == ','))

/-- Modelled from claim C4 as stated: the remainder after the leading
token is split on the first comma; everything before it is the last
name and everything after it is the first name, both trimmed; any
failure gives two empty names. -/
def claimNamesSplit (region : List Char) : List Char × List Char :=
  match restAfterFirstToken region with
  | none => ([], [])
  | some rest =>
    match afterFirstComma rest with
    | none => ([], [])
    | some after => (strip (upToComma rest), strip after)

/-- Modelled from the amended claim C4: the last name is the trimmed text
before the first comma and the first name is the trimmed text between
the first and second commas (the whole remainder when there is no second
comma); any failure gives two empty names. -/
def amendedNamesSplit (region : List Char) : List Char × List Char :=
  match restAfterFirstToken region with
  | none => ([], [])
  | some rest =>
    match afterFirstComma rest with
    | none => ([], [])
    | some after => (strip (upToComma rest), strip (upToComma after))

/-- Modelled from claim C7 as stated: scan for the first substring of six
digits beginning with 20, map its last digit through the season table,
and return season, space, first four digits, trimmed; the empty string
when no such substring occurs. -/
def sixDigit20At : List Char → Option (List Char)
  | c1 :: c2 :: c3 :: c4 :: c5 :: c6 :: _ =>
    if c1 == '2' && c2 == '0' && isDigit c3 && isDigit c4 && isDigit c5 && isDigit c6 then
      some [c1, c2, c3, c4, c5, c6]
    else none
  | _ => none

/-- Modelled from claim C7 as stated (see sixDigit20At). -/
def claimTermCodeDetect : List Char → List Char
  | [] => []
  | c :: rest =>
    match sixDigit20At (c :: rest) with
    | some code => strip (seasonMap (code.getLastD ' ') ++ ' ' :: code.take 4)
    | none => claimTermCodeDetect rest

/-- Modelled from the amended claim C7: the first occurrence, between
word boundaries, of 20 then two digits then 0 then a digit from 1 to 4
yields season, space, first four digits; no occurrence yields the empty
string. -/
def amendedTermCodeDetect (text : List Char) : List Char :=
  match findTermCode none text with
  | some code => seasonMap (code.getLastD ' ') ++ ' ' :: code.take 4
  | none => []

/-- Modelled from claim C9 as stated: when the following line contains
the configured domain as a substring, the email is that line's first
whitespace-delimited token; otherwise it is empty. -/
def claimEmailRule (domain : List Char) (next? : Option (List Char)) : List Char :=
  match next? with
  | none => []
  | some l => if containsSub domain l then firstToken l else []

/-! ## Concrete fixtures for the scenario claims -/

/-- Page 1 of the end-to-end scenario. -/
def c2page1 : List Char :=
  ("12345 GEO 170 1 Intro to Geography\n1 Doe, Jane G12345678\njdoe@pcc.edu".toList)

/-- Page 2 of the end-to-end scenario. -/
def c2page2 : List Char :=
  ("54321 GEO 221 2 Advanced Geo\n2 Smith, John G87654321\nend of roster".toList)

/-- First expected record of the end-to-end scenario. -/
def c2rec1 : StudentRecord :=
  { firstName := "Jane".toList, lastName := "Doe".toList, gNumber := "G12345678".toList,
    email := "jdoe@pcc.edu".toList, classLabel := "GEO 170".toList, crn := "12345".toList }

/-- Second expected record of the end-to-end scenario. -/
def c2rec2 : StudentRecord :=
  { firstName := "John".toList, lastName := "Smith".toList, gNumber := "G87654321".toList,
    email := [], classLabel := "GEO 221".toList, crn := "54321".toList }

/-- The context announced by the page 1 header. -/
def ctxGeo170 : ClassContext :=
  { crn := "12345".toList, subject := "GEO".toList, courseNumber := "170".toList,
    sec := "1".toList, courseName := "Intro to Geography".toList }

/-- The context announced by the page 2 header. -/
def ctxGeo221 : ClassContext :=
  { crn := "54321".toList, subject := "GEO".toList, courseNumber := "221".toList,
    sec := "2".toList, courseName := "Advanced Geo".toList }

/-- The header groups captured from the page 1 header line. -/
def grp170 : HeaderGroups :=
  { crn := "12345".toList, subject := "GEO".toList, courseNumber := "170".toList,
    sec := "1".toList, courseName := "Intro to Geography".toList }

/-- The header groups captured from the page 2 header line. -/
def grp221 : HeaderGroups :=
  { crn := "54321".toList, subject := "GEO".toList, courseNumber := "221".toList,
    sec := "2".toList, courseName := "Advanced Geo".toList }

/-- A one-page document whose header would parse but fails an allow list
holding only course 170. -/
def c5page : List Char :=
  ("54321 GEO 221 2 Advanced Geo\n2 Smith, John G87654321".toList)

/-! ## Helper lemmas -/

/-- One header update: a match inside the allow list replaces the
context, a match outside clears it. -/
def headerStep (allowed : Option (List (List Char))) (ctx : Option ClassContext)
    (g : HeaderGroups) : Option ClassContext :=
  if courseAllowed allowed g.courseNumber then some (mkContext g) else none

/-- The header pass is the left fold of the header updates over exactly
the header matches of the page, in line order: non-header lines do not
touch the context, and the final context is whatever the last header
match left. -/
theorem headerPass_eq_foldl (allowed : Option (List (List Char)))
    (ctx : Option ClassContext) (lines : List (List Char)) :
    headerPass allowed ctx lines
      = (lines.filterMap headerMatch).foldl (headerStep allowed) ctx := by
  induction lines generalizing ctx with
  | nil => rfl
  | cons line rest ih =>
    simp only [headerPass, List.filterMap_cons]
    cases hm : headerMatch line with
    | none => simp [ih]
    | some g =>
      cases hca : courseAllowed allowed g.courseNumber <;>
        simp [headerStep, hca, ih]

theorem identPass_mem_aux (domain : List Char) :
    ∀ (n : Nat) (lines : List (List Char)), lines.length ≤ n →
      ∀ (ctx : Option ClassContext) (r : StudentRecord), r ∈ identPass domain ctx lines →
      ∃ cc, ctx = some cc ∧ r.classLabel = cc.subject ++ ' ' :: cc.courseNumber
        ∧ r.crn = cc.crn := by
  intro n
  induction n with
  | zero =>
    intro lines hlen ctx r hr
    match lines with
    | [] => simp [identPass] at hr
    | l :: ls => simp at hlen
  | succ n ih =>
    intro lines hlen ctx r hr
    match lines with
    | [] => simp [identPass] at hr
    | [line] =>
      cases hfind : findGnum line with
      | none => simp [identPass, hfind] at hr
      | some pg =>
        obtain ⟨p, g⟩ := pg
        cases ctx with
        | none => simp [identPass, hfind] at hr
        | some c =>
          simp only [identPass, hfind, List.mem_singleton] at hr
          exact ⟨c, rfl, by simp [hr, mkRecord], by simp [hr, mkRecord]⟩
    | line :: next :: rest =>
      cases hfind : findGnum line with
      | none =>
        have hr2 : r ∈ identPass domain ctx (next :: rest) := by
          simpa [identPass, hfind] using hr
        exact ih (next :: rest) (by simp at hlen ⊢; omega) _ r hr2
      | some pg =>
        obtain ⟨p, g⟩ := pg
        cases ctx with
        | none =>
          have hr2 : r ∈ identPass domain none (next :: rest) := by
            simpa [identPass, hfind] using hr
          exact ih (next :: rest) (by simp at hlen ⊢; omega) _ r hr2
        | some c =>
          rw [show identPass domain (some c) (line :: next :: rest)
              = mkRecord domain c p g (some next) :: identPass domain (some c) rest by
                simp [identPass, hfind]] at hr
          rcases List.mem_cons.mp hr with h | h
          · exact ⟨c, rfl, by simp [h, mkRecord], by simp [h, mkRecord]⟩
          · exact ih rest (by simp at hlen; omega) _ r h

/-- Every record produced by the identifier pass carries the class label
and CRN of the context the pass was run under, and that context is
active (not none). -/
theorem identPass_mem_context {domain : List Char} {lines : List (List Char)}
    {ctx : Option ClassContext} {r : StudentRecord} (hr : r ∈ identPass domain ctx lines) :
    ∃ cc, ctx = some cc ∧ r.classLabel = cc.subject ++ ' ' :: cc.courseNumber
      ∧ r.crn = cc.crn :=
  identPass_mem_aux domain lines.length lines (Nat.le_refl _) ctx r hr

/-- Claim C1: within one page, the whole header pass runs before any
identifier is processed, so every record emitted from the page carries
the class label and CRN of the context standing after the last header
match of the page (the fold of all header updates of the page, in line
order) - in particular a header occurring after a student line still
governs that student. -/
theorem page_records_use_final_header_context (s : Settings) (ctx : Option ClassContext)
    (page : List Char) (r : StudentRecord)
    (hr : r ∈ (processPage s ctx page).2) :
    ∃ cc : ClassContext,
      headerPass s.allowedCourses ctx (splitChar '\n' page) = some cc ∧
      headerPass s.allowedCourses ctx (splitChar '\n' page)
        = ((splitChar '\n' page).filterMap headerMatch).foldl (headerStep s.allowedCourses) ctx ∧
      r.classLabel = cc.subject ++ ' ' :: cc.courseNumber ∧ r.crn = cc.crn := by
  simp only [processPage] at hr
  obtain ⟨cc, hctx, hlabel, hcrn⟩ := identPass_mem_context hr
  exact ⟨cc, hctx, headerPass_eq_foldl _ _ _, hlabel, hcrn⟩

/-- A page whose student line comes before its header line. -/
def c1page : List Char :=
  ("1 Doe, Jane G12345678\n12345 GEO 170 1 Intro to Geography".toList)

/-- The record that page produces: it is tagged with the class announced
by the header standing after the student line. -/
def c1rec : StudentRecord :=
  { firstName := "Jane".toList, lastName := "Doe".toList, gNumber := "G12345678".toList,
    email := [], classLabel := "GEO 170".toList, crn := "12345".toList }

/-- Settings with course filtering disabled. -/
def c1settings : Settings := { allowedCourses := none, emailDomain := ("@pcc.edu".toList) }

theorem page_records_use_final_header_context_witness :
    ∃ cc : ClassContext,
      headerPass c1settings.allowedCourses none (splitChar '\n' c1page) = some cc ∧
      headerPass c1settings.allowedCourses none (splitChar '\n' c1page)
        = ((splitChar '\n' c1page).filterMap headerMatch).foldl
            (headerStep c1settings.allowedCourses) none ∧
      c1rec.classLabel = cc.subject ++ ' ' :: cc.courseNumber ∧ c1rec.crn = cc.crn :=
  page_records_use_final_header_context c1settings none c1page c1rec (by decide)

/-- With a nonempty configured domain the email extraction never hits
the error path: the checked extraction agrees with the total one. -/
theorem emailFromNextChecked_of_ne (domain : List Char) (hdom : domain ≠ [])
    (next? : Option (List Char)) :
    emailFromNextChecked domain next? = some (emailFromNext domain next?) := by
  cases next? with
  | none => rfl
  | some l =>
    simp only [emailFromNextChecked, emailFromNext]
    by_cases hc : containsSub domain (strip l) = true
    · rw [if_pos hc, if_pos hc]
      cases hel : (strip l).isEmpty with
      | false => rfl
      | true =>
        exfalso
        have hnil : strip l = [] := by
          cases hst : strip l with
          | nil => rfl
          | cons a t => rw [hst] at hel; cases hel
        rw [hnil] at hc
        have hde : domain.isEmpty = true := hc
        cases hd2 : domain with
        | nil => exact hdom hd2
        | cons a t => rw [hd2] at hde; cases hde
    · rw [if_neg hc, if_neg hc]

theorem identPassChecked_eq_aux (domain : List Char) (hdom : domain ≠ []) :
    ∀ (n : Nat) (lines : List (List Char)), lines.length ≤ n →
      ∀ (ctx : Option ClassContext),
        identPassChecked domain ctx lines = some (identPass domain ctx lines) := by
  intro n
  induction n with
  | zero =>
    intro lines hlen ctx
    match lines with
    | [] => rfl
    | l :: ls => simp at hlen
  | succ n ih =>
    intro lines hlen ctx
    match lines with
    | [] => rfl
    | [line] =>
      cases hfind : findGnum line with
      | none => simp [identPassChecked, identPass, hfind]
      | some pg =>
        obtain ⟨p, g⟩ := pg
        cases ctx with
        | none => simp [identPassChecked, identPass, hfind]
        | some c => simp [identPassChecked, identPass, hfind]
    | line :: next :: rest =>
      cases hfind : findGnum line with
      | none =>
        have h2 := ih (next :: rest) (by simp at hlen ⊢; omega) ctx
        simpa [identPassChecked, identPass, hfind] using h2
      | some pg =>
        obtain ⟨p, g⟩ := pg
        cases ctx with
        | none =>
          have h2 := ih (next :: rest) (by simp at hlen ⊢; omega) none
          simpa [identPassChecked, identPass, hfind] using h2
        | some c =>
          have hrest := ih rest (by simp at hlen; omega) (some c)
          have hem := emailFromNextChecked_of_ne domain hdom (some next)
          simp only [identPassChecked, identPass, hfind, hem, hrest]
          simp [mkRecord]

/-- With a nonempty configured domain the identifier pass never hits the
error path of the email extraction, so the checked pass completes and
agrees with the total one. -/
theorem identPassChecked_eq (domain : List Char) (hdom : domain ≠ [])
    (ctx : Option ClassContext) (lines : List (List Char)) :
    identPassChecked domain ctx lines = some (identPass domain ctx lines) :=
  identPassChecked_eq_aux domain hdom lines.length lines (Nat.le_refl _) ctx

/-- Claim C3 counterexample: under the empty configured email domain and
a blank line at the next cursor position, the source raises an
IndexError inside the email extraction (the empty domain occurs in the
blank stripped line, whose whitespace split has no element 0) and the
run aborts with no record, even though the line at the cursor holds the
identifier pattern and a context is active - so the record is not
emitted and the cursor does not advance by 2, contradicting the claim
for this domain and follow line. -/
theorem identifier_cursor_counterexample :
    findGnum ("1 Doe, Jane G12345678".toList)
      = some (("1 Doe, Jane ".toList), ("G12345678".toList))
    ∧ emailFromNextChecked [] (some ("   ".toList)) = none
    ∧ identPassChecked [] (some ctxGeo170)
        [("1 Doe, Jane G12345678".toList), ("   ".toList)] = none :=
  ⟨by decide, by decide, by decide⟩

/-- Claim C3 as amended: for a nonempty configured email domain the
identifier pass never hits the source error path (the checked pass
agrees with the total one), and at any cursor position a line holding
the identifier pattern while a context is active emits exactly one
record and moves the cursor past the following line (whatever that line
holds, and even when there is none), while a line without the pattern,
or any line while no context is active, emits nothing and moves the
cursor by one. -/
theorem identifier_cursor_rule (domain : List Char) (hdom : domain ≠ [])
    (line : List Char) (rest : List (List Char)) (ctx : Option ClassContext) :
    identPassChecked domain ctx (line :: rest) = some (identPass domain ctx (line :: rest))
    ∧ (∀ p g c, findGnum line = some (p, g) → ctx = some c →
      identPass domain ctx (line :: rest)
        = mkRecord domain c p g rest.head? :: identPass domain ctx (rest.drop 1))
    ∧ (findGnum line = none ∨ ctx = none →
      identPass domain ctx (line :: rest) = identPass domain ctx rest) := by
  refine ⟨identPassChecked_eq domain hdom ctx (line :: rest), ?_, ?_⟩
  · intro p g c hfind hctx
    subst hctx
    cases rest with
    | nil => simp [identPass, hfind]
    | cons next rest2 => simp [identPass, hfind]
  · intro h
    cases rest with
    | nil =>
      rcases h with h | h
      · cases ctx <;> simp [identPass, h]
      · subst h; cases hfind : findGnum line with
        | none => simp [identPass, hfind]
        | some pg => obtain ⟨p, g⟩ := pg; simp [identPass, hfind]
    | cons next rest2 =>
      rcases h with h | h
      · cases ctx <;> simp [identPass, h]
      · subst h; cases hfind : findGnum line with
        | none => simp [identPass, hfind]
        | some pg => obtain ⟨p, g⟩ := pg; simp [identPass, hfind]

theorem identifier_cursor_rule_witness :
    identPass ("@pcc.edu".toList) (some ctxGeo170) [("1 Doe, Jane G12345678".toList)]
      = mkRecord ("@pcc.edu".toList) ctxGeo170 ("1 Doe, Jane ".toList) ("G12345678".toList)
          (List.head? ([] : List (List Char)))
        :: identPass ("@pcc.edu".toList) (some ctxGeo170) (List.drop 1 ([] : List (List Char))) :=
  (identifier_cursor_rule ("@pcc.edu".toList) (by decide) ("1 Doe, Jane G12345678".toList) []
    (some ctxGeo170)).2.1 ("1 Doe, Jane ".toList) ("G12345678".toList) ctxGeo170 (by decide) rfl

theorem walk_mem_aux (s : Settings) :
    ∀ (pages : List (List Char)) (ctx : Option ClassContext) (r : StudentRecord),
      r ∈ walk s ctx pages →
      ∃ cc, some cc ∈ pageContexts s ctx pages
        ∧ r.classLabel = cc.subject ++ ' ' :: cc.courseNumber ∧ r.crn = cc.crn := by
  intro pages
  induction pages with
  | nil => intro ctx r hr; simp [walk] at hr
  | cons p ps ih =>
    intro ctx r hr
    rw [walk] at hr
    rcases List.mem_append.mp hr with h | h
    · have h2 : r ∈ identPass s.emailDomain (processPage s ctx p).1 (splitChar '\n' p) := by
        simpa [processPage] using h
      obtain ⟨cc, hctx, hlabel, hcrn⟩ := identPass_mem_context h2
      exact ⟨cc, by simp [pageContexts, hctx.symm], hlabel, hcrn⟩
    · obtain ⟨cc, hmem, hlabel, hcrn⟩ := ih _ r h
      exact ⟨cc, by simp [pageContexts, hmem], hlabel, hcrn⟩

/-- Claim C6: invariant of the whole document walk - every emitted
record carries the class label (subject, space, course number) and CRN
of a context that was active while its page was scanned, and no record
is ever created while no context is active. -/
theorem walk_records_have_active_context (s : Settings) (pages : List (List Char))
    (r : StudentRecord) (hr : r ∈ parseDocument s pages) :
    ∃ cc : ClassContext, some cc ∈ pageContexts s none pages
      ∧ r.classLabel = cc.subject ++ ' ' :: cc.courseNumber ∧ r.crn = cc.crn :=
  walk_mem_aux s pages none r hr

/-- The settings of the end-to-end scenario with an explicit allow list. -/
def c2settings : Settings :=
  { allowedCourses := some [("170".toList), ("221".toList)],
    emailDomain := ("@pcc.edu".toList) }

theorem walk_records_have_active_context_witness :
    ∃ cc : ClassContext, some cc ∈ pageContexts c2settings none [c2page1, c2page2]
      ∧ c2rec1.classLabel = cc.subject ++ ' ' :: cc.courseNumber ∧ c2rec1.crn = cc.crn :=
  walk_records_have_active_context c2settings [c2page1, c2page2] c2rec1 (by decide)

/-- An allow list holding only course 170, for the claim about filtering. -/
def c5settings : Settings :=
  { allowedCourses := some [("170".toList)], emailDomain := ("@pcc.edu".toList) }

/-- Claim C5: a header line matching the header shape whose course number
is outside a configured allow list clears the active context; a cleared
context suppresses every record of the identifier pass; and on the
concrete one-page document whose header announces course 221 under an
allow list holding only 170, the parse emits nothing even though the
student line would otherwise parse. -/
theorem allowlist_filter_clears (al : List (List Char)) (ctx : Option ClassContext)
    (line : List Char) (rest : List (List Char)) (g : HeaderGroups) :
    (headerMatch line = some g → al.contains g.courseNumber = false →
      headerPass (some al) ctx (line :: rest) = headerPass (some al) none rest)
    ∧ (∀ domain lines, identPass domain none lines = [])
    ∧ parseDocument c5settings [c5page] = [] := by
  refine ⟨?_, ?_, by decide⟩
  · intro hm hc
    have hca : courseAllowed (some al) g.courseNumber = false := hc
    simp [headerPass, hm, hca]
  · intro domain lines
    induction lines with
    | nil => rfl
    | cons l ls ih =>
      cases ls with
      | nil =>
        cases hfind : findGnum l with
        | none => simp [identPass, hfind]
        | some pg => obtain ⟨p, g2⟩ := pg; simp [identPass, hfind]
      | cons l2 ls2 =>
        cases hfind : findGnum l with
        | none => simpa [identPass, hfind] using ih
        | some pg => obtain ⟨p, g2⟩ := pg; simpa [identPass, hfind] using ih

theorem allowlist_filter_clears_witness :
    (headerPass (some [("170".toList)]) none
        [("54321 GEO 221 2 Advanced Geo".toList), ("2 Smith, John G87654321".toList)]
      = headerPass (some [("170".toList)]) none [("2 Smith, John G87654321".toList)])
    ∧ identPass ("@pcc.edu".toList) none [("2 Smith, John G87654321".toList)] = [] :=
  ⟨(allowlist_filter_clears [("170".toList)] none ("54321 GEO 221 2 Advanced Geo".toList)
      [("2 Smith, John G87654321".toList)] grp221).1 (by decide) (by decide),
   (allowlist_filter_clears [("170".toList)] none ("54321 GEO 221 2 Advanced Geo".toList)
      [("2 Smith, John G87654321".toList)] grp221).2.1 ("@pcc.edu".toList)
      [("2 Smith, John G87654321".toList)]⟩

/-- Claim C2: the end-to-end scenario. Under any settings whose allow
list admits courses 170 and 221 (including a disabled allow list) and
whose email domain is the institutional one, the two-page document of
the scenario parses to exactly the two expected records in order. -/
theorem two_page_walk (ac : Option (List (List Char)))
    (h170 : courseAllowed ac ("170".toList) = true)
    (h221 : courseAllowed ac ("221".toList) = true) :
    parseDocument { allowedCourses := ac, emailDomain := ("@pcc.edu".toList) }
      [c2page1, c2page2] = [c2rec1, c2rec2] := by
  have hs1 : splitChar '\n' c2page1
      = [("12345 GEO 170 1 Intro to Geography".toList), ("1 Doe, Jane G12345678".toList),
         ("jdoe@pcc.edu".toList)] := by decide
  have hs2 : splitChar '\n' c2page2
      = [("54321 GEO 221 2 Advanced Geo".toList), ("2 Smith, John G87654321".toList),
         ("end of roster".toList)] := by decide
  have hm11 : headerMatch ("12345 GEO 170 1 Intro to Geography".toList) = some grp170 := by
    decide
  have hm12 : headerMatch ("1 Doe, Jane G12345678".toList) = none := by decide
  have hm13 : headerMatch ("jdoe@pcc.edu".toList) = none := by decide
  have hm21 : headerMatch ("54321 GEO 221 2 Advanced Geo".toList) = some grp221 := by decide
  have hm22 : headerMatch ("2 Smith, John G87654321".toList) = none := by decide
  have hm23 : headerMatch ("end of roster".toList) = none := by decide
  have hctx1 : mkContext grp170 = ctxGeo170 := by decide
  have hctx2 : mkContext grp221 = ctxGeo221 := by decide
  have hg170 : grp170.courseNumber = ("170".toList) := rfl
  have hg221 : grp221.courseNumber = ("221".toList) := rfl
  have hH1 : headerPass ac none (splitChar '\n' c2page1) = some ctxGeo170 := by
    rw [hs1]
    simp only [headerPass, hm11, hm12, hm13]
    rw [hg170, h170, hctx1]
    rfl
  have hH2 : headerPass ac (some ctxGeo170) (splitChar '\n' c2page2) = some ctxGeo221 := by
    rw [hs2]
    simp only [headerPass, hm21, hm22, hm23]
    rw [hg221, h221, hctx2]
    rfl
  have hI1 : identPass ("@pcc.edu".toList) (some ctxGeo170) (splitChar '\n' c2page1)
      = [c2rec1] := by decide
  have hI2 : identPass ("@pcc.edu".toList) (some ctxGeo221) (splitChar '\n' c2page2)
      = [c2rec2] := by decide
  simp only [parseDocument, walk, processPage]
  rw [hH1, hI1, hH2, hI2]
  rfl

theorem two_page_walk_witness :
    parseDocument c2settings [c2page1, c2page2] = [c2rec1, c2rec2] :=
  two_page_walk (some [("170".toList), ("221".toList)]) (by decide) (by decide)

/-! ## Name extraction: comparison with the specified split -/

theorem splitChar_of_no_sep (sep : Char) :
    ∀ l : List Char, l.dropWhile (fun c => !(c == sep)) = [] → splitChar sep l = [l] := by
  intro l
  induction l with
  | nil => intro h; rfl
  | cons c rest ih =>
    intro h
    rw [List.dropWhile_cons] at h
    by_cases hc : c == sep
    · simp [hc] at h
    · simp only [hc, Bool.not_false, if_true, Bool.false_eq_true] at h
      simp [splitChar, hc, ih h]

theorem splitChar_of_sep (sep : Char) :
    ∀ l c0 t, l.dropWhile (fun c => !(c == sep)) = c0 :: t →
      splitChar sep l = l.takeWhile (fun c => !(c == sep)) :: splitChar sep t := by
  intro l
  induction l with
  | nil => intro c0 t h; simp at h
  | cons c rest ih =>
    intro c0 t h
    rw [List.dropWhile_cons] at h
    by_cases hc : c == sep
    · simp only [hc, Bool.not_true, Bool.false_eq_true, if_false] at h
      injection h with h1 h2
      subst h2
      simp [splitChar, hc, List.takeWhile_cons]
    · simp only [hc, Bool.not_false, if_true, Bool.false_eq_true] at h
      simp [splitChar, hc, ih c0 t h, List.takeWhile_cons]

theorem takeWhile_of_dropWhile_nil {p : Char → Bool} {l : List Char}
    (h : l.dropWhile p = []) : l.takeWhile p = l := by
  have := List.takeWhile_append_dropWhile (p := p) (l := l)
  rw [h, List.append_nil] at this
  exact this

/-- Both comma pieces used by the source are initial segments up to a
comma: the piece at index 0 is the text before the first comma and the
piece at index 1 is the text between the first and second commas (or the
whole remainder when no second comma exists). -/
theorem extractNames_eq_amended (region : List Char) :
    extractNames region = amendedNamesSplit region := by
  cases htok : restAfterFirstToken region with
  | none => simp only [extractNames, amendedNamesSplit, htok]
  | some rest =>
    simp only [extractNames, amendedNamesSplit, htok]
    cases hdrop : rest.dropWhile (fun c => !(c == ',')) with
    | nil =>
      rw [splitChar_of_no_sep ',' rest hdrop]
      rw [show afterFirstComma rest = none by rw [afterFirstComma, hdrop]]
    | cons c0 t =>
      rw [splitChar_of_sep ',' rest c0 t hdrop]
      rw [show afterFirstComma rest = some t by rw [afterFirstComma, hdrop]]
      cases hdrop2 : t.dropWhile (fun c => !(c == ',')) with
      | nil =>
        rw [splitChar_of_no_sep ',' t hdrop2]
        simp only [upToComma]
        rw [takeWhile_of_dropWhile_nil hdrop2]
      | cons c1 t1 =>
        rw [splitChar_of_sep ',' t c1 t1 hdrop2]
        simp only [upToComma]

/-- Claim C4 counterexample: on the identifier line whose name region
holds two commas, the source keeps only the piece between the first and
second commas as the first name, while the claim as stated would keep
everything after the first comma. -/
theorem names_split_counterexample :
    findGnum ("1 Doe, Jane, Jr G12345678".toList)
      = some (("1 Doe, Jane, Jr ".toList), ("G12345678".toList))
    ∧ extractNames ("1 Doe, Jane, Jr ".toList) = (("Doe".toList), ("Jane".toList))
    ∧ claimNamesSplit ("1 Doe, Jane, Jr ".toList) = (("Doe".toList), ("Jane, Jr".toList))
    ∧ extractNames ("1 Doe, Jane, Jr ".toList) ≠ claimNamesSplit ("1 Doe, Jane, Jr ".toList) :=
  ⟨by decide, by decide, by decide, by decide⟩

/-- Claim C4 as amended: the name region drops its leading token; the
last name is the trimmed text before the first comma and the first name
is the trimmed text between the first and second commas (the whole
remainder when there is no second comma); when the token removal fails
or no comma exists both names are empty; and, for a nonempty configured
email domain (under which the pass never hits the source error path,
witnessed by the checked pass completing), the record is still emitted
with those names, never dropped. -/
theorem names_extraction_amended :
    (∀ region, extractNames region = amendedNamesSplit region)
    ∧ (∀ domain, domain ≠ [] → ∀ c line rest p g, findGnum line = some (p, g) →
        identPassChecked domain (some c) (line :: rest)
          = some (identPass domain (some c) (line :: rest))
        ∧ ∃ tl, identPass domain (some c) (line :: rest)
            = mkRecord domain c p g rest.head? :: tl
          ∧ (mkRecord domain c p g rest.head?).lastName = (extractNames p).1
          ∧ (mkRecord domain c p g rest.head?).firstName = (extractNames p).2) := by
  refine ⟨extractNames_eq_amended, ?_⟩
  intro domain hdom c line rest p g hfind
  refine ⟨identPassChecked_eq domain hdom (some c) (line :: rest), ?_⟩
  cases rest with
  | nil => exact ⟨[], by simp [identPass, hfind], by simp [mkRecord], by simp [mkRecord]⟩
  | cons next rest2 =>
    exact ⟨identPass domain (some c) rest2, by simp [identPass, hfind],
      by simp [mkRecord], by simp [mkRecord]⟩

theorem names_extraction_amended_witness :
    extractNames ("1 Doe, Jane ".toList) = amendedNamesSplit ("1 Doe, Jane ".toList)
    ∧ identPassChecked ("@pcc.edu".toList) (some ctxGeo170) [("1 Doe, Jane G12345678".toList)]
        = some (identPass ("@pcc.edu".toList) (some ctxGeo170)
            [("1 Doe, Jane G12345678".toList)])
    ∧ ∃ tl, identPass ("@pcc.edu".toList) (some ctxGeo170) [("1 Doe, Jane G12345678".toList)]
        = mkRecord ("@pcc.edu".toList) ctxGeo170 ("1 Doe, Jane ".toList) ("G12345678".toList)
            (List.head? ([] : List (List Char))) :: tl
      ∧ (mkRecord ("@pcc.edu".toList) ctxGeo170 ("1 Doe, Jane ".toList) ("G12345678".toList)
          (List.head? ([] : List (List Char)))).lastName
            = (extractNames ("1 Doe, Jane ".toList)).1
      ∧ (mkRecord ("@pcc.edu".toList) ctxGeo170 ("1 Doe, Jane ".toList) ("G12345678".toList)
          (List.head? ([] : List (List Char)))).firstName
            = (extractNames ("1 Doe, Jane ".toList)).2 :=
  ⟨names_extraction_amended.1 ("1 Doe, Jane ".toList),
   (names_extraction_amended.2 ("@pcc.edu".toList) (by decide) ctxGeo170
     ("1 Doe, Jane G12345678".toList) [] ("1 Doe, Jane ".toList) ("G12345678".toList)
     (by decide)).1,
   (names_extraction_amended.2 ("@pcc.edu".toList) (by decide) ctxGeo170
     ("1 Doe, Jane G12345678".toList) [] ("1 Doe, Jane ".toList) ("G12345678".toList)
     (by decide)).2⟩

/-! ## Email extraction -/

/-- Claim C9 counterexample: with a configured domain ending in a space,
the raw following line contains the domain while its stripped form does
not; the source, which tests the stripped line, produces an empty email
where the claim as stated produces the first token of the line. -/
theorem email_substring_counterexample :
    containsSub ("u ".toList) ("xu ".toList) = true
    ∧ claimEmailRule ("u ".toList) (some ("xu ".toList)) = ("xu".toList)
    ∧ emailFromNext ("u ".toList) (some ("xu ".toList)) = []
    ∧ emailFromNext ("u ".toList) (some ("xu ".toList))
        ≠ claimEmailRule ("u ".toList) (some ("xu ".toList)) :=
  ⟨by decide, by decide, by decide, by decide⟩

/-- Claim C9 as amended: for a nonempty configured domain, every record
extracted for an identifier line under an active context takes its email
from the stripped following line - its first whitespace token when the
stripped line contains the domain as a substring, the empty string
otherwise, and the empty string when no following line exists; extra
surrounding whitespace never matters, as on the concrete padded follow
line. -/
theorem email_rule_amended (domain : List Char) (h : domain ≠ []) (c : ClassContext)
    (line : List Char) (p g : List Char) (hfind : findGnum line = some (p, g)) :
    (∀ next rest, identPass domain (some c) (line :: next :: rest)
        = mkRecord domain c p g (some next) :: identPass domain (some c) rest
      ∧ (mkRecord domain c p g (some next)).email
          = (if containsSub domain (strip next) then firstToken (strip next) else []))
    ∧ (identPass domain (some c) [line] = [mkRecord domain c p g none]
      ∧ (mkRecord domain c p g none).email = [])
    ∧ emailFromNext ("@pcc.edu".toList) (some ("  jdoe@pcc.edu  extra text".toList))
        = ("jdoe@pcc.edu".toList) := by
  refine ⟨?_, ⟨by simp [identPass, hfind], by simp [mkRecord, emailFromNext]⟩, by decide⟩
  intro next rest
  exact ⟨by simp [identPass, hfind], by simp [mkRecord, emailFromNext]⟩

theorem email_rule_amended_witness :
    (identPass ("@pcc.edu".toList) (some ctxGeo170)
        [("1 Doe, Jane G12345678".toList), ("  jdoe@pcc.edu  extra text".toList)]
      = mkRecord ("@pcc.edu".toList) ctxGeo170 ("1 Doe, Jane ".toList) ("G12345678".toList)
          (some ("  jdoe@pcc.edu  extra text".toList))
        :: identPass ("@pcc.edu".toList) (some ctxGeo170) [])
    ∧ (mkRecord ("@pcc.edu".toList) ctxGeo170 ("1 Doe, Jane ".toList) ("G12345678".toList)
        (some ("  jdoe@pcc.edu  extra text".toList))).email
        = (if containsSub ("@pcc.edu".toList) (strip ("  jdoe@pcc.edu  extra text".toList))
            then firstToken (strip ("  jdoe@pcc.edu  extra text".toList)) else []) :=
  ⟨((email_rule_amended ("@pcc.edu".toList) (by decide) ctxGeo170
      ("1 Doe, Jane G12345678".toList) ("1 Doe, Jane ".toList) ("G12345678".toList)
      (by decide)).1 ("  jdoe@pcc.edu  extra text".toList) []).1,
   ((email_rule_amended ("@pcc.edu".toList) (by decide) ctxGeo170
      ("1 Doe, Jane G12345678".toList) ("1 Doe, Jane ".toList) ("G12345678".toList)
      (by decide)).1 ("  jdoe@pcc.edu  extra text".toList) []).2⟩

/-! ## Term detection: the code path -/

theorem digit_not_space {c : Char} (h : isDigit c = true) : isSpace c = false := by
  cases hs : isSpace c
  · rfl
  · exfalso
    simp only [isSpace, Bool.or_eq_true, beq_iff_eq] at hs
    simp only [isDigit, Bool.and_eq_true, decide_eq_true_eq] at h
    rcases hs with ((((rfl | rfl) | rfl) | rfl) | rfl) | rfl <;> exact absurd h.1 (by decide)

theorem termCodeAt_inv {prev : Option Char} {l code : List Char}
    (h : termCodeAt prev l = some code) :
    ∃ c3 c4 c6, code = ['2', '0', c3, c4, '0', c6]
      ∧ isDigit c3 = true ∧ isDigit c4 = true
      ∧ (c6 = '1' ∨ c6 = '2' ∨ c6 = '3' ∨ c6 = '4') := by
  unfold termCodeAt at h
  split at h
  · rename_i c1 c2 c3 c4 c5 c6 rest
    split at h
    · rename_i hcond
      simp only [Bool.and_eq_true, Bool.or_eq_true, beq_iff_eq] at hcond
      obtain ⟨⟨⟨⟨⟨⟨⟨h1, h2⟩, h3⟩, h4⟩, h5⟩, h6⟩, hprev⟩, hnext⟩ := hcond
      injection h with hcode
      subst h1; subst h2; subst h5
      exact ⟨c3, c4, c6, hcode.symm, h3, h4, by tauto⟩
    · cases h
  · cases h

theorem dropWhile_isSpace_eq_self {l : List Char}
    (hh : ∀ d, l.head? = some d → isSpace d = false) : l.dropWhile isSpace = l := by
  cases l with
  | nil => rfl
  | cons c rest =>
    rw [List.dropWhile_cons, hh c rfl]
    simp

theorem getLast_cons_cons_not_space {c c2 : Char} {rest2 : List Char}
    (h : ∀ d, (c :: c2 :: rest2).getLast? = some d → isSpace d = false) :
    ∀ d, (c2 :: rest2).getLast? = some d → isSpace d = false := by
  intro d hd
  exact h d (by rw [List.getLast?_cons_cons]; exact hd)

theorem dropTrailing_eq_self : ∀ (l : List Char),
    (∀ d, l.getLast? = some d → isSpace d = false) → dropTrailing l = l := by
  intro l
  induction l with
  | nil => intro h; rfl
  | cons c rest ih =>
    intro h
    cases rest with
    | nil =>
      have hc : isSpace c = false := h c rfl
      simp [dropTrailing, hc]
    | cons c2 rest2 =>
      have heq : dropTrailing (c :: c2 :: rest2)
          = (if (dropTrailing (c2 :: rest2)).isEmpty then (if isSpace c then [] else [c])
             else c :: dropTrailing (c2 :: rest2)) := rfl
      rw [heq, ih (getLast_cons_cons_not_space h)]
      rfl

/-- A string whose first and last characters are not whitespace is left
alone by strip. -/
theorem strip_eq_self {l : List Char}
    (hh : ∀ d, l.head? = some d → isSpace d = false)
    (hl : ∀ d, l.getLast? = some d → isSpace d = false) : strip l = l := by
  rw [strip, dropWhile_isSpace_eq_self hh, dropTrailing_eq_self l hl]

theorem termFromCode_word (w : List Char) (a : Char) (t : List Char) (hw : w = a :: t)
    (ha : isSpace a = false) (c3 c4 : Char) (h3 : isSpace c3 = false) (h4 : isSpace c4 = false)
    (hlast : (w ++ ' ' :: ['2', '0', c3, c4]).getLast? = some c4) :
    strip (w ++ ' ' :: ['2', '0', c3, c4]) = w ++ ' ' :: ['2', '0', c3, c4]
      ∧ (strip (w ++ ' ' :: ['2', '0', c3, c4])).isEmpty = false := by
  subst hw
  have hh : ∀ d, ((a :: t) ++ ' ' :: ['2', '0', c3, c4]).head? = some d → isSpace d = false := by
    intro d hd
    rw [List.cons_append, List.head?_cons] at hd
    injection hd with hd
    subst hd
    exact ha
  have hl : ∀ d, ((a :: t) ++ ' ' :: ['2', '0', c3, c4]).getLast? = some d
      → isSpace d = false := by
    intro d hd
    rw [hlast] at hd
    injection hd with hd
    subst hd
    exact h4
  have he := strip_eq_self hh hl
  exact ⟨he, by rw [he]; rfl⟩

theorem termFromCode_of_match {prev : Option Char} {l code : List Char}
    (h : termCodeAt prev l = some code) :
    termFromCode code = seasonMap (code.getLastD ' ') ++ ' ' :: code.take 4
      ∧ (termFromCode code).isEmpty = false := by
  obtain ⟨c3, c4, c6, rfl, h3, h4, h6⟩ := termCodeAt_inv h
  have hs3 : isSpace c3 = false := digit_not_space h3
  have hs4 : isSpace c4 = false := digit_not_space h4
  rcases h6 with rfl | rfl | rfl | rfl
  · exact termFromCode_word ("Winter".toList) 'W' ("inter".toList) rfl (by decide)
      c3 c4 hs3 hs4 rfl
  · exact termFromCode_word ("Spring".toList) 'S' ("pring".toList) rfl (by decide)
      c3 c4 hs3 hs4 rfl
  · exact termFromCode_word ("Summer".toList) 'S' ("ummer".toList) rfl (by decide)
      c3 c4 hs3 hs4 rfl
  · exact termFromCode_word ("Fall".toList) 'F' ("all".toList) rfl (by decide)
      c3 c4 hs3 hs4 rfl

theorem codeLoop_eq_first :
    ∀ (l : List Char) (prev : Option Char),
      codeLoop prev l
        = (match findTermCode prev l with
            | some code => seasonMap (code.getLastD ' ') ++ ' ' :: code.take 4
            | none => []) := by
  intro l
  induction l with
  | nil => intro prev; rfl
  | cons c rest ih =>
    intro prev
    cases hm : termCodeAt prev (c :: rest) with
    | some code =>
      obtain ⟨hlabel, hne⟩ := termFromCode_of_match hm
      rw [hlabel] at hne
      simp only [codeLoop, findTermCode, hm, hlabel, hne, Bool.false_eq_true, if_false]
    | none =>
      simp only [codeLoop, findTermCode, hm, ih (some c)]

/-- Claim C7 counterexample: the text holds the six-digit numeric code
202513, which begins with 20, so the claim as stated converts it (last
digit 3, Summer); but the source term-code pattern also requires the
fifth digit to be 0, so the source detects nothing. -/
theorem term_code_counterexample :
    findTermText none ("term 202513".toList) = none
    ∧ claimTermCodeDetect ("term 202513".toList) = ("Summer 2025".toList)
    ∧ detectTerm ("term 202513".toList) = []
    ∧ detectTerm ("term 202513".toList) ≠ claimTermCodeDetect ("term 202513".toList) :=
  ⟨by decide, by decide, by decide, by decide⟩

/-- Claim C7 as amended: when no season-and-year phrase occurs, term
detection scans for the first occurrence, between word boundaries, of a
six-digit code reading 20, two digits, 0, then a digit from 1 to 4, maps
that last digit through the table 1 Winter, 2 Spring, 3 Summer, 4 Fall,
and returns the season, a space, and the first four digits; when no such
code occurs it returns the empty string. -/
theorem term_code_amended (text : List Char) (h : findTermText none text = none) :
    detectTerm text = amendedTermCodeDetect text := by
  rw [detectTerm, h, amendedTermCodeDetect, codeLoop_eq_first]

theorem term_code_amended_witness :
    findTermText none ("term 202503".toList) = none
    ∧ detectTerm ("term 202503".toList) = amendedTermCodeDetect ("term 202503".toList)
    ∧ detectTerm ("term 202503".toList) = ("Summer 2025".toList) :=
  ⟨by decide, term_code_amended ("term 202503".toList) (by decide), by decide⟩

/-! ## Term detection: the season phrase path -/

theorem matchCaseless_inv :
    ∀ (p l m rest : List Char), matchCaseless p l = some (m, rest) →
      m.map toLowerChar = p.map toLowerChar := by
  intro p
  induction p with
  | nil =>
    intro l m rest h
    rw [matchCaseless] at h
    injection h with h2
    injection h2 with ha hb
    subst ha
    rfl
  | cons pc ps ih =>
    intro l m rest h
    cases l with
    | nil => rw [matchCaseless] at h; cases h
    | cons c cs =>
      rw [matchCaseless] at h
      split at h
      · rename_i hcond
        split at h
        · rename_i m2 rest2 hm
          injection h with h2
          injection h2 with ha hb
          subst ha
          simp only [List.map_cons]
          rw [ih cs m2 rest2 hm]
          have : toLowerChar c = toLowerChar pc := by
            have := hcond
            simp only [beq_iff_eq] at this
            exact this
          rw [this]
        · cases h
      · cases h

theorem firstAlt_inv :
    ∀ (alts : List (List Char)) (l m rest : List Char),
      firstAlt alts l = some (m, rest) → ∃ p ∈ alts, matchCaseless p l = some (m, rest) := by
  intro alts
  induction alts with
  | nil => intro l m rest h; cases h
  | cons p ps ih =>
    intro l m rest h
    rw [firstAlt] at h
    cases hm : matchCaseless p l with
    | some r =>
      rw [hm] at h
      injection h with h2
      exact ⟨p, List.mem_cons_self p ps, by rw [hm, h2]⟩
    | none =>
      rw [hm] at h
      obtain ⟨q, hq, hq2⟩ := ih l m rest h
      exact ⟨q, List.mem_cons_of_mem p hq, hq2⟩

theorem termTextAt_inv {prev : Option Char} {l : List Char} {s y : List Char}
    (h : termTextAt prev l = some (s, y)) :
    (∃ p ∈ seasonAlt, s.map toLowerChar = p.map toLowerChar)
    ∧ ∃ y3 y4, y = ['2', '0', y3, y4] ∧ isDigit y3 = true ∧ isDigit y4 = true := by
  unfold termTextAt at h
  split at h
  case isFalse => cases h
  case isTrue =>
    split at h
    case h_1 => cases h
    case h_2 season r1 hfa =>
      split at h
      case isTrue => cases h
      case isFalse =>
        split at h
        case h_2 => cases h
        case h_1 y1 y2 y3 y4 r2 hdrop =>
          split at h
          case isFalse => cases h
          case isTrue hcond =>
            injection h with h2
            injection h2 with ha hb
            simp only [Bool.and_eq_true, beq_iff_eq] at hcond
            obtain ⟨⟨⟨⟨hy1, hy2⟩, hy3⟩, hy4⟩, hhead⟩ := hcond
            subst hy1
            subst hy2
            obtain ⟨q, hq, hq2⟩ := firstAlt_inv seasonAlt l season r1 hfa
            exact ⟨⟨q, hq, ha ▸ matchCaseless_inv q l season r1 hq2⟩,
              y3, y4, hb.symm, hy3, hy4⟩

theorem findTermText_inv :
    ∀ (l : List Char) (prev : Option Char) (s y : List Char),
      findTermText prev l = some (s, y) →
      (∃ p ∈ seasonAlt, s.map toLowerChar = p.map toLowerChar)
      ∧ ∃ y3 y4, y = ['2', '0', y3, y4] ∧ isDigit y3 = true ∧ isDigit y4 = true := by
  intro l
  induction l with
  | nil => intro prev s y h; cases h
  | cons c rest ih =>
    intro prev s y h
    rw [findTermText] at h
    cases ht : termTextAt prev (c :: rest) with
    | some r =>
      rw [ht] at h
      obtain ⟨s2, y2⟩ := r
      injection h with h2
      injection h2 with ha hb
      subst ha
      subst hb
      exact termTextAt_inv ht
    | none =>
      rw [ht] at h
      exact ih (some c) s y h

/-- Claim C8 counterexample: the text Fall 1999 holds a season name
followed by a four-digit year, so the claim as stated yields the label
Fall 1999; but the source year pattern requires the year to begin with
20, so the source detects nothing. -/
theorem term_text_counterexample :
    detectTerm ("Fall 1999".toList) = []
    ∧ detectTerm ("Fall 1999".toList) ≠ ("Fall 1999".toList) :=
  ⟨by decide, by decide⟩

/-- Claim C8 as amended: term detection first searches for a season name
(one of the four, case-insensitively, between word boundaries) followed
by whitespace and a year of the form 20 then two digits; when found it
returns the title-cased season, a space, and the year, as on the
concrete inputs Fall 2025 and fall 2025. -/
theorem term_text_amended :
    (∀ text s y, findTermText none text = some (s, y) →
      detectTerm text = titleWord s ++ ' ' :: y
      ∧ y.length = 4 ∧ y.take 2 = ("20".toList) ∧ y.all isDigit = true
      ∧ (s.map toLowerChar)
          ∈ [("spring".toList), ("summer".toList), ("fall".toList), ("winter".toList)])
    ∧ detectTerm ("Fall 2025".toList) = ("Fall 2025".toList)
    ∧ detectTerm ("fall 2025".toList) = ("Fall 2025".toList) := by
  refine ⟨?_, by decide, by decide⟩
  intro text s y h
  obtain ⟨⟨p, hp, hmap⟩, y3, y4, rfl, h3, h4⟩ := findTermText_inv text none s y h
  refine ⟨by rw [detectTerm, h], rfl, rfl, ?_, ?_⟩
  · simp [List.all_cons, h3, h4] <;> decide
  · simp only [seasonAlt, List.mem_cons, List.not_mem_nil, or_false] at hp
    rcases hp with rfl | rfl | rfl | rfl <;> rw [hmap] <;> decide

theorem term_text_amended_witness :
    findTermText none ("Fall 2025".toList) = some (("Fall".toList), ("2025".toList))
    ∧ detectTerm ("Fall 2025".toList)
        = titleWord ("Fall".toList) ++ ' ' :: ("2025".toList) :=
  ⟨by decide,
   (term_text_amended.1 ("Fall 2025".toList) ("Fall".toList) ("2025".toList) (by decide)).1⟩

/-! ## Filename sanitation: idempotence -/

/-- No two adjacent whitespace characters. -/
def noTwoSpacesB : List Char → Bool
  | a :: b :: rest => (!(isSpace a && isSpace b)) && noTwoSpacesB (b :: rest)
  | _ => true

theorem allowed_space_is_blank {c : Char} (h1 : isAllowedChar c = true)
    (h2 : isSpace c = true) : c = ' ' := by
  simp only [isSpace, Bool.or_eq_true, beq_iff_eq] at h2
  rcases h2 with ((((rfl | rfl) | rfl) | rfl) | rfl) | rfl
  · rfl
  all_goals exact absurd h1 (by decide)

theorem mem_dropWhile_isSpace : ∀ (l : List Char) {c : Char},
    c ∈ l.dropWhile isSpace → c ∈ l := by
  intro l
  induction l with
  | nil => intro c h; cases h
  | cons a rest ih =>
    intro c h
    rw [List.dropWhile_cons] at h
    by_cases ha : isSpace a
    · rw [if_pos ha] at h; exact List.mem_cons_of_mem a (ih h)
    · rw [if_neg ha] at h; exact h

theorem dropTrailing_cons_eq (a : Char) (rest : List Char) :
    dropTrailing (a :: rest)
      = (if (dropTrailing rest).isEmpty then (if isSpace a then [] else [a])
         else a :: dropTrailing rest) := rfl

theorem mem_dropTrailing : ∀ (l : List Char) {c : Char}, c ∈ dropTrailing l → c ∈ l := by
  intro l
  induction l with
  | nil => intro c h; cases h
  | cons a rest ih =>
    intro c h
    rw [dropTrailing_cons_eq] at h
    by_cases he : (dropTrailing rest).isEmpty
    · rw [if_pos he] at h
      by_cases ha : isSpace a
      · rw [if_pos ha] at h; cases h
      · rw [if_neg ha] at h
        rw [List.mem_singleton] at h
        exact h ▸ List.mem_cons_self a rest
    · rw [if_neg he] at h
      rcases List.mem_cons.mp h with rfl | h2
      · exact List.mem_cons_self c rest
      · exact List.mem_cons_of_mem a (ih h2)

theorem mem_strip (l : List Char) {c : Char} (h : c ∈ strip l) : c ∈ l :=
  mem_dropWhile_isSpace l (mem_dropTrailing _ h)

theorem mem_collapseAux : ∀ (l : List Char) (b : Bool) {c : Char},
    c ∈ collapseAux b l → c = ' ' ∨ c ∈ l := by
  intro l
  induction l with
  | nil => intro b c h; cases h
  | cons a rest ih =>
    intro b c h
    by_cases ha : isSpace a
    · cases b
      · have hstep : collapseAux false (a :: rest) = ' ' :: collapseAux true rest := by
          simp [collapseAux, ha]
        rw [hstep] at h
        rcases List.mem_cons.mp h with rfl | h2
        · exact Or.inl rfl
        · rcases ih true h2 with h3 | h3
          · exact Or.inl h3
          · exact Or.inr (List.mem_cons_of_mem a h3)
      · have hstep : collapseAux true (a :: rest) = collapseAux true rest := by
          simp [collapseAux, ha]
        rw [hstep] at h
        rcases ih true h with h3 | h3
        · exact Or.inl h3
        · exact Or.inr (List.mem_cons_of_mem a h3)
    · have hstep : collapseAux b (a :: rest) = a :: collapseAux false rest := by
        cases b <;> simp [collapseAux, ha]
      rw [hstep] at h
      rcases List.mem_cons.mp h with rfl | h2
      · exact Or.inr (List.mem_cons_self c rest)
      · rcases ih false h2 with h3 | h3
        · exact Or.inl h3
        · exact Or.inr (List.mem_cons_of_mem a h3)

theorem head_collapse_true : ∀ (l : List Char) {d : Char},
    (collapseAux true l).head? = some d → isSpace d = false := by
  intro l
  induction l with
  | nil => intro d h; cases h
  | cons a rest ih =>
    intro d h
    by_cases ha : isSpace a
    · rw [show collapseAux true (a :: rest) = collapseAux true rest by simp [collapseAux, ha]]
        at h
      exact ih h
    · rw [show collapseAux true (a :: rest) = a :: collapseAux false rest by
          simp [collapseAux, ha], List.head?_cons] at h
      injection h with h
      subst h
      simpa using ha

theorem noTwo_cons_of (a : Char) (l : List Char) (h1 : noTwoSpacesB l = true)
    (h2 : isSpace a = true → ∀ d, l.head? = some d → isSpace d = false) :
    noTwoSpacesB (a :: l) = true := by
  cases l with
  | nil => rfl
  | cons b rest =>
    cases hsa : isSpace a with
    | false => simp [noTwoSpacesB, h1, hsa]
    | true => simp [noTwoSpacesB, h1, hsa, h2 hsa b rfl]

theorem noTwo_tail {a : Char} {l : List Char} (h : noTwoSpacesB (a :: l) = true) :
    noTwoSpacesB l = true := by
  cases l with
  | nil => rfl
  | cons b rest =>
    rw [noTwoSpacesB, Bool.and_eq_true] at h
    exact h.2

theorem noTwo_collapse : ∀ (l : List Char) (b : Bool),
    noTwoSpacesB (collapseAux b l) = true := by
  intro l
  induction l with
  | nil => intro b; rfl
  | cons a rest ih =>
    intro b
    by_cases ha : isSpace a
    · cases b
      · rw [show collapseAux false (a :: rest) = ' ' :: collapseAux true rest by
            simp [collapseAux, ha]]
        apply noTwo_cons_of
        · exact ih true
        · intro _ d hd; exact head_collapse_true rest hd
      · rw [show collapseAux true (a :: rest) = collapseAux true rest by simp [collapseAux, ha]]
        exact ih true
    · have hf : isSpace a = false := by simpa using ha
      rw [show collapseAux b (a :: rest) = a :: collapseAux false rest by
          cases b <;> simp [collapseAux, ha]]
      apply noTwo_cons_of
      · exact ih false
      · intro hsa2; exact absurd hsa2 (by simp [hf])

theorem noTwo_dropWhile : ∀ (l : List Char), noTwoSpacesB l = true →
    noTwoSpacesB (l.dropWhile isSpace) = true := by
  intro l
  induction l with
  | nil => intro h; exact h
  | cons a rest ih =>
    intro h
    rw [List.dropWhile_cons]
    by_cases ha : isSpace a
    · rw [if_pos ha]; exact ih (noTwo_tail h)
    · rw [if_neg ha]; exact h

theorem head_dropTrailing : ∀ (l : List Char) {d : Char},
    (dropTrailing l).head? = some d → l.head? = some d := by
  intro l
  induction l with
  | nil => intro d h; cases h
  | cons a rest ih =>
    intro d h
    rw [dropTrailing_cons_eq] at h
    by_cases he : (dropTrailing rest).isEmpty
    · rw [if_pos he] at h
      by_cases ha : isSpace a
      · rw [if_pos ha] at h; cases h
      · rw [List.head?_cons]
        rw [if_neg ha, List.head?_cons] at h
        exact h
    · rw [if_neg he] at h
      rw [List.head?_cons] at h ⊢
      exact h

theorem noTwo_dropTrailing : ∀ (l : List Char), noTwoSpacesB l = true →
    noTwoSpacesB (dropTrailing l) = true := by
  intro l
  induction l with
  | nil => intro h; exact h
  | cons a rest ih =>
    intro h
    rw [dropTrailing_cons_eq]
    by_cases he : (dropTrailing rest).isEmpty
    · rw [if_pos he]
      by_cases ha : isSpace a
      · rw [if_pos ha]; rfl
      · rw [if_neg ha]; rfl
    · rw [if_neg he]
      apply noTwo_cons_of
      · exact ih (noTwo_tail h)
      · intro hsa d hd
        have hd2 : rest.head? = some d := head_dropTrailing rest hd
        cases rest with
        | nil => cases hd2
        | cons b rest2 =>
          rw [List.head?_cons] at hd2
          injection hd2 with hd2
          subst hd2
          rw [noTwoSpacesB, Bool.and_eq_true] at h
          have h5 := h.1
          simpa [hsa] using h5

theorem noTwo_strip (l : List Char) (h : noTwoSpacesB l = true) :
    noTwoSpacesB (strip l) = true :=
  noTwo_dropTrailing _ (noTwo_dropWhile l h)

theorem head_dropWhile_isSpace : ∀ (l : List Char) {d : Char},
    (l.dropWhile isSpace).head? = some d → isSpace d = false := by
  intro l
  induction l with
  | nil => intro d h; cases h
  | cons a rest ih =>
    intro d h
    rw [List.dropWhile_cons] at h
    by_cases ha : isSpace a
    · rw [if_pos ha] at h; exact ih h
    · rw [if_neg ha, List.head?_cons] at h
      injection h with h
      subst h
      simpa using ha

theorem head_strip_not_space {l : List Char} {d : Char} (h : (strip l).head? = some d) :
    isSpace d = false :=
  head_dropWhile_isSpace l (head_dropTrailing _ h)

theorem getLast_dropTrailing : ∀ (l : List Char) {d : Char},
    (dropTrailing l).getLast? = some d → isSpace d = false := by
  intro l
  induction l with
  | nil => intro d h; cases h
  | cons a rest ih =>
    intro d h
    rw [dropTrailing_cons_eq] at h
    by_cases he : (dropTrailing rest).isEmpty
    · rw [if_pos he] at h
      by_cases ha : isSpace a
      · rw [if_pos ha] at h; cases h
      · rw [if_neg ha] at h
        injection h with h
        subst h
        simpa using ha
    · rw [if_neg he] at h
      cases hdt : dropTrailing rest with
      | nil => rw [hdt] at he; simp at he
      | cons b rest2 =>
        rw [hdt, List.getLast?_cons_cons] at h
        exact ih (by rw [hdt]; exact h)

theorem collapse_eq_self : ∀ (l : List Char),
    (∀ c ∈ l, isSpace c = true → c = ' ') → noTwoSpacesB l = true →
    collapseAux false l = l ∧
      ((∀ d, l.head? = some d → isSpace d = false) → collapseAux true l = l) := by
  intro l
  induction l with
  | nil => intro h1 h2; exact ⟨rfl, fun _ => rfl⟩
  | cons a rest ih =>
    intro h1 h2
    obtain ⟨ihf, iht⟩ := ih (fun c hc => h1 c (List.mem_cons_of_mem a hc)) (noTwo_tail h2)
    by_cases ha : isSpace a
    · have hab : a = ' ' := h1 a (List.mem_cons_self a rest) ha
      constructor
      · rw [show collapseAux false (a :: rest) = ' ' :: collapseAux true rest by
            simp [collapseAux, ha], hab]
        congr 1
        apply iht
        intro d hd
        cases rest with
        | nil => cases hd
        | cons b rest2 =>
          rw [List.head?_cons] at hd
          injection hd with hd
          subst hd
          rw [noTwoSpacesB, Bool.and_eq_true] at h2
          have h5 := h2.1
          simpa [ha] using h5
      · intro hh
        exact absurd (hh a rfl) (by simp [ha])
    · have hstep : ∀ b, collapseAux b (a :: rest) = a :: collapseAux false rest := by
        intro b; cases b <;> simp [collapseAux, ha]
      constructor
      · rw [hstep false, ihf]
      · intro _; rw [hstep true, ihf]

theorem safeFilename_all_allowed (s : List Char) :
    ∀ c ∈ safeFilename s, isAllowedChar c = true := by
  intro c hc
  rw [safeFilename] at hc
  have h2 := mem_strip _ hc
  rcases mem_collapseAux _ false h2 with rfl | h3
  · decide
  · exact List.of_mem_filter h3

/-- Claim C10: the filename sanitizer is idempotent - its output holds
only allowed characters (so the character filter is the identity on it),
has no leading or trailing whitespace (so stripping is the identity) and
no run of more than one space (so whitespace collapsing is the
identity), hence a second application changes nothing. -/
theorem safe_filename_idempotent (s : List Char) :
    safeFilename (safeFilename s) = safeFilename s := by
  have hall : ∀ c ∈ safeFilename s, isAllowedChar c = true := safeFilename_all_allowed s
  have hnt : noTwoSpacesB (safeFilename s) = true := by
    rw [safeFilename]
    exact noTwo_strip _ (noTwo_collapse _ false)
  have hh : ∀ d, (safeFilename s).head? = some d → isSpace d = false := by
    intro d hd
    rw [safeFilename] at hd
    exact head_strip_not_space hd
  have hl : ∀ d, (safeFilename s).getLast? = some d → isSpace d = false := by
    intro d hd
    rw [safeFilename, strip] at hd
    exact getLast_dropTrailing _ hd
  have hstrip : strip (safeFilename s) = safeFilename s := strip_eq_self hh hl
  have hfilter : (safeFilename s).filter isAllowedChar = safeFilename s :=
    List.filter_eq_self.mpr hall
  have hcoll : collapseAux false (safeFilename s) = safeFilename s :=
    (collapse_eq_self (safeFilename s)
      (fun c hc hs => allowed_space_is_blank (hall c hc) hs) hnt).1
  calc safeFilename (safeFilename s)
      = strip (collapseAux false ((strip (safeFilename s)).filter isAllowedChar)) := rfl
    _ = safeFilename s := by rw [hstrip, hfilter, hcoll, hstrip]
